import Mathlib

/-!
Verification of the schema-driven Helm values collector (restsim-cli).

This file shallowly embeds the core of the repository:
* `flatten` / `unflatten` from `src/parser.ts`,
* `promptFromSchema`, `extractOptions`, `castValue` from `src/ui.ts`,
* the legacy flat collector `promptUser` and its `castValue` from `src/prompt.ts`,
* the declared `HelmValuesSchema` from `src/schema.ts` with a validator modelled
  from the specification (the zod library itself is external to the repository).

JavaScript dynamic values are modelled by the inductive types `Prim` (scalars)
and `Doc` (scalar-or-mapping documents).  JS objects are modelled as ordered
association lists of own enumerable data properties; property access through the
prototype chain and character/length indexing of string primitives are outside
the model.  JS numbers are modelled as integers (`Int`): the sources only ever
manipulate integer-valued numerics, and floating-point behaviour is outside the
model.  The modules of the repository are ES modules, hence run in strict mode:
assigning a property to a primitive value throws a `TypeError`, which is
modelled by the `Except Unit` error channel of `unflatten`.
-/

/-- A JavaScript scalar value as it occurs in the repository's documents:
a (integer-valued) number, a string, a boolean, or `null`. -/
inductive Prim where
  | num (n : Int)
  | str (s : String)
  | bool (b : Bool)
  | null
deriving DecidableEq, Repr

/-- A JavaScript document value: a scalar, or a plain object modelled as an
ordered association list of its own enumerable properties (insertion order). -/
inductive Doc where
  | prim (p : Prim)
  | obj (entries : List (String × Doc))
deriving Repr

mutual

/-- Decidable equality of documents (mutual with entry lists). -/
def Doc.decEq : (a b : Doc) → Decidable (a = b)
  | .prim p, .prim q =>
    if h : p = q then isTrue (by rw [h])
    else isFalse (fun hh => h (by cases hh; rfl))
  | .prim _, .obj _ => isFalse nofun
  | .obj _, .prim _ => isFalse nofun
  | .obj es, .obj fs =>
    match Doc.decEqEntries es fs with
    | isTrue h => isTrue (by rw [h])
    | isFalse h => isFalse (fun hh => h (by cases hh; rfl))
termination_by a _ => sizeOf a

/-- Decidable equality of entry lists (mutual with documents). -/
def Doc.decEqEntries : (a b : List (String × Doc)) → Decidable (a = b)
  | [], [] => isTrue rfl
  | [], _ :: _ => isFalse nofun
  | _ :: _, [] => isFalse nofun
  | (k, d) :: rest, (k2, d2) :: rest2 =>
    if h1 : k = k2 then
      match Doc.decEq d d2 with
      | isTrue h2 =>
        match Doc.decEqEntries rest rest2 with
        | isTrue h3 => isTrue (by rw [h1, h2, h3])
        | isFalse h3 => isFalse (fun hh => by
            injection hh with hh1 hh2
            exact h3 hh2)
      | isFalse h2 => isFalse (fun hh => by
          injection hh with hh1 hh2
          exact h2 (congrArg Prod.snd hh1))
    else isFalse (fun hh => by
      injection hh with hh1 hh2
      exact h1 (congrArg Prod.fst hh1))
termination_by a _ => sizeOf a

end

instance : DecidableEq Doc := Doc.decEq

instance : Inhabited Prim := ⟨Prim.null⟩

instance : Inhabited Doc := ⟨Doc.prim Prim.null⟩

/-- JS property read `o[k]` on an object: first entry with the given key. -/
def getAssoc {α : Type} : List (String × α) → String → Option α
  | [], _ => none
  | (k', v) :: rest, k => if k' = k then some v else getAssoc rest k

/-- JS property write `o[k] = v`: replaces the value in place if the key is
present (keeping its position), otherwise appends the new key at the end. -/
def setAssoc {α : Type} : List (String × α) → String → α → List (String × α)
  | [], k, v => [(k, v)]
  | (k', v') :: rest, k, v =>
    if k' = k then (k', v) :: rest else (k', v') :: setAssoc rest k v

/-- JS truthiness of a document value: objects are truthy; `0`, the empty
string, `false` and `null` are falsy. -/
def truthy : Doc → Bool
  | .obj _ => true
  | .prim (.num n) => n != 0
  | .prim (.str s) => s != ""
  | .prim (.bool b) => b
  | .prim .null => false

/-- JS `Object.assign(acc, xs)`: writes every property of `xs` into `acc`
in order, overwriting in place or appending. -/
def assignAll {α : Type} (acc : List (String × α)) (xs : List (String × α)) :
    List (String × α) :=
  xs.foldl (fun a kv => setAssoc a kv.1 kv.2) acc

/-- `path.split(".")` of JS, on the character list: splits at every dot,
producing at least one (possibly empty) segment. -/
def splitDotAux : List Char → List Char → List String
  | [], acc => [String.mk acc.reverse]
  | c :: cs, acc =>
    if c = '.' then String.mk acc.reverse :: splitDotAux cs []
    else splitDotAux cs (c :: acc)

/-- `path.split(".")` of JS: `""` splits to `[""]`, `"a.b"` to `["a","b"]`. -/
def splitDot (s : String) : List String := splitDotAux s.data []

/-- The path-extension step of `flatten`:
`const pre = prefix ? prefix + "." + key : key`. -/
def joinPath (pre key : String) : String :=
  if pre = "" then key else pre ++ "." ++ key

/-! ### JS number conversion (`Number(string)` and `String(number)`)

The repository relies on the ECMAScript `Number` coercion inside both
`castValue` functions.  The model covers integer-valued inputs: leading and
trailing whitespace is dropped, the empty remainder coerces to `0`, and an
optionally signed run of decimal digits coerces to its value; every other
string coerces to NaN, modelled as `none`.  Fractional, exponent, hexadecimal
and `Infinity` forms are outside the integer-valued model. -/

/-- ECMAScript whitespace accepted by the `Number` coercion (main cases). -/
def isJsWs (c : Char) : Bool :=
  c = ' ' || c = '\t' || c = '\n' || c = '\r' || c = '\x0b' || c = '\x0c' ||
    c = '\u00A0' || c = '\uFEFF'

/-- Strip leading and trailing JS whitespace from a character list. -/
def trimJs (l : List Char) : List Char :=
  ((l.dropWhile isJsWs).reverse.dropWhile isJsWs).reverse

/-- Decimal digit test. -/
def isDigitCh (c : Char) : Bool := 48 ≤ c.toNat && c.toNat ≤ 57

/-- Numeric value of a decimal digit character. -/
def digitVal (c : Char) : Nat := c.toNat - 48

/-- Value of a run of decimal digits (most significant first). -/
def digitsToNat (l : List Char) : Nat := l.foldl (fun a c => 10 * a + digitVal c) 0

/-- The whitespace-trimmed remainder of the `Number` coercion: empty means
`0`, an optionally signed digit run means its decimal value, NaN is `none`. -/
def parseTrimmed : List Char → Option Int
  | [] => some 0
  | c :: rest =>
    if c = '-' then
      if rest ≠ [] ∧ rest.all isDigitCh then some (-(digitsToNat rest : Int))
      else none
    else if c = '+' then
      if rest ≠ [] ∧ rest.all isDigitCh then some ((digitsToNat rest : Int))
      else none
    else if (c :: rest).all isDigitCh then some ((digitsToNat (c :: rest) : Int))
    else none

/-- `Number(s)` of JS on the integer fragment. -/
def jsToNumber (s : String) : Option Int := parseTrimmed (trimJs s.data)

/-- The decimal digit character for a value below ten. -/
def digitChar : Nat → Char
  | 0 => '0'
  | 1 => '1'
  | 2 => '2'
  | 3 => '3'
  | 4 => '4'
  | 5 => '5'
  | 6 => '6'
  | 7 => '7'
  | 8 => '8'
  | _ => '9'

/-- Decimal digits of a natural number, most significant first. -/
def natToDigits (n : Nat) : List Char :=
  if n < 10 then [digitChar n]
  else natToDigits (n / 10) ++ [digitChar (n % 10)]
termination_by n
decreasing_by exact Nat.div_lt_self (by omega) (by omega)

/-- `String(n)` of JS for an integer-valued number. -/
def jsNumToString (n : Int) : String :=
  if n < 0 then String.mk ('-' :: natToDigits (-n).toNat)
  else String.mk (natToDigits n.toNat)

/-- `s.toLowerCase()` of JS, restricted to ASCII case mapping. -/
def jsToLower (s : String) : String := String.mk (s.data.map Char.toLower)

/-- `String(v)` of JS on the values of the model: numbers print in decimal,
strings verbatim, booleans as `true`/`false`, `null` as `"null"`. -/
def jsStringOfPrim : Prim → String
  | .num n => jsNumToString n
  | .str s => s
  | .bool b => if b then "true" else "false"
  | .null => "null"

/-- `String(defaultValue)` where the default may be absent (`undefined`) or a
whole document; a plain object prints as `[object Object]`. -/
def jsDisplay : Option Doc → String
  | none => "undefined"
  | some (.prim p) => jsStringOfPrim p
  | some (.obj _) => "[object Object]"

/-! ### Path flattener (`src/parser.ts`) -/

/-- `flatten(obj, prefix)` of `src/parser.ts`: depth-first walk over the
entries; a nested non-array object recurses with the extended prefix and its
flat entries are merged by `Object.assign`; any other value is recorded at its
dot-joined path.  `acc` is the accumulator object of the `reduce`. -/
def flatten : List (String × Doc) → String → List (String × Prim) → List (String × Prim)
  | [], _, acc => acc
  | (key, .prim p) :: rest, pre, acc =>
    flatten rest pre (setAssoc acc (joinPath pre key) p)
  | (key, .obj sub) :: rest, pre, acc =>
    flatten rest pre (assignAll acc (flatten sub (joinPath pre key) []))

/-- `acc[key] = acc[key] || {}` of `unflatten`: the intermediate object to
descend into — the existing value if truthy, a fresh empty object if the key
is absent or its value falsy. -/
def childFor (es : List (String × Doc)) (key : String) : Doc :=
  match getAssoc es key with
  | some c => if truthy c then c else Doc.obj []
  | none => Doc.obj []

/-- One `keys.reduce` pass of `unflatten` for a single path: walk/create
intermediate objects (`acc[key] = acc[key] || {}`), write the value at the
final segment.  The modules run in strict mode, so assigning a property to a
primitive value throws a `TypeError`, modelled by `Except.error ()`. -/
def writePath : Doc → List String → Prim → Except Unit Doc
  | .prim _, _, _ => .error ()
  | .obj es, [], _ => .ok (.obj es)
  | .obj es, [key], v => .ok (.obj (setAssoc es key (.prim v)))
  | .obj es, key :: key2 :: rest, v =>
    match writePath (childFor es key) (key2 :: rest) v with
    | .ok c2 => .ok (.obj (setAssoc es key c2))
    | .error e => .error e

/-- The `for (const path in flat)` loop of `unflatten`, threading the result
object; a thrown `TypeError` aborts the whole loop. -/
def unflattenAux : Doc → List (String × Prim) → Except Unit Doc
  | acc, [] => .ok acc
  | acc, (path, v) :: rest =>
    match writePath acc (splitDot path) v with
    | .ok acc2 => unflattenAux acc2 rest
    | .error e => .error e

/-- `unflatten(flat)` of `src/parser.ts`. -/
def unflatten (flat : List (String × Prim)) : Except Unit Doc :=
  unflattenAux (Doc.obj []) flat

/-! ### Schema model (`src/schema.ts`) and the interactive collector
(`src/ui.ts`)

The zod schema instances used by the repository are modelled by a closed
descriptor tree: `obj` for `z.object`, `enum` for `z.enum`, `union` for a
`z.union` of `z.literal` members (the only union shape the repository
declares), and the scalar kinds. -/

/-- The schema descriptor tree walked by `promptFromSchema`. -/
inductive Schema where
  | obj (fields : List (String × Schema))
  | enum (options : List String)
  | union (options : List Prim)
  | number
  | boolean
  | string
deriving Repr

/-- `extractOptions` of `src/ui.ts`: a `ZodEnum` yields its string options, a
union yields the values of its literal members, every other node none. -/
def extractOptions : Schema → List Prim
  | .enum opts => opts.map Prim.str
  | .union opts => opts
  | _ => []

/-- `castValue` of `src/ui.ts`: a `ZodNumber` target parses with `Number` and
falls back to the raw string on NaN; a `ZodBoolean` is true iff the lowercased
text equals `"true"`; everything else is returned verbatim. -/
def castValue (value : String) (schema : Schema) : Prim :=
  match schema with
  | .number =>
    match jsToNumber value with
    | some n => .num n
    | none => .str value
  | .boolean => .bool (jsToLower value == "true")
  | .enum _ => .str value
  | .string => .str value
  | _ => .str value

/-- One answer of the prompt provider: `sel` is the index the user picks in a
`select` prompt, `txt` the raw text typed into an `input` prompt.  Each prompt
consumes exactly one answer, reading the component it needs. -/
structure Resp where
  sel : Nat
  txt : String

/-- The value returned by the inquirer `input` prompt: a raw empty submission
returns the offered default, anything else is returned as typed. -/
def inputResult (defaultStr raw : String) : String :=
  if raw = "" then defaultStr else raw

/-- The value of the choice picked in the `select` prompt built by
`promptFromSchema`: the declared options followed by the synthetic escape
choice whose value is the sentinel string `"__custom__"`.  The select UI only
lets the user pick a listed choice; out-of-range indices are mapped to the
escape choice and are unreachable through the UI. -/
def pickChoice (options : List Prim) (i : Nat) : Prim :=
  (options ++ [Prim.str "__custom__"]).getD i (Prim.str "__custom__")

/-- `currentValue?.[key]` restricted to own enumerable data properties:
absent or primitive receivers yield no value.  Prototype-chain members and
character/length indexing of string primitives are outside the model. -/
def jsIndex : Option Doc → String → Option Doc
  | none, _ => none
  | some (.obj es), key => getAssoc es key
  | some (.prim _), _ => none

/-- The leaf branch of `promptFromSchema`: enumerated leaves present a select
with the options plus the escape choice; picking the sentinel (or a leaf
without options) routes the text (default-filled when submitted empty) through
`castValue`.  Returns the collected value with the next answer index. -/
def leafPrompt (currentValue : Option Doc) (schema : Schema)
    (oracle : Nat → Resp) (k : Nat) : Doc × Nat :=
  let defaultStr := jsDisplay currentValue
  let options := extractOptions schema
  if options.length > 0 then
    let selected := pickChoice options (oracle k).sel
    if selected = .str "__custom__" then
      (.prim (castValue (inputResult defaultStr (oracle (k + 1)).txt) schema), k + 2)
    else (.prim selected, k + 1)
  else
    (.prim (castValue (inputResult defaultStr (oracle k).txt) schema), k + 1)

mutual

/-- `promptFromSchema` of `src/ui.ts`: a `ZodObject` recurses over its shape
keys in declared order, extending the path and slicing the default document;
a leaf runs `leafPrompt`.  `oracle` supplies the user's answers in prompt
order starting at index `k`; the path argument only feeds prompt messages. -/
def promptFromSchema (currentValue : Option Doc) (schema : Schema)
    (pathPre : String) (oracle : Nat → Resp) (k : Nat) : Doc × Nat :=
  match schema with
  | .obj fields =>
    let r := promptFields currentValue fields pathPre oracle k
    (Doc.obj r.1, r.2)
  | s => leafPrompt currentValue s oracle k
termination_by sizeOf schema

/-- The `for (const key of Object.keys(shape))` loop of `promptFromSchema`. -/
def promptFields (currentValue : Option Doc) (fields : List (String × Schema))
    (pathPre : String) (oracle : Nat → Resp) (k : Nat) :
    List (String × Doc) × Nat :=
  match fields with
  | [] => ([], k)
  | (key, fieldSchema) :: rest =>
    let r1 := promptFromSchema (jsIndex currentValue key) fieldSchema
      (joinPath pathPre key) oracle k
    let r2 := promptFields currentValue rest pathPre oracle r1.2
    ((key, r1.1) :: r2.1, r2.2)
termination_by sizeOf fields

end

/-! ### Legacy flat collector (`src/prompt.ts`) -/

namespace Prompt

/-- `castValue` of `src/prompt.ts`: the target kind is the runtime type of the
stored default; numbers parse with `Number` falling back to the raw string,
booleans compare the lowercased text with `"true"`, anything else (strings and
`null` defaults) keeps the text verbatim. -/
def castValue (input : String) (original : Prim) : Prim :=
  match original with
  | .num _ =>
    match jsToNumber input with
    | some n => .num n
    | none => .str input
  | .bool _ => .bool (jsToLower input == "true")
  | _ => .str input

/-- The loop body state of `promptUser`: the `modified` set (as an
insertion-ordered duplicate-free list) and the `result` object. -/
def promptUserAux : List (String × Prim) → (Nat → String) → Nat →
    List String → List (String × Prim) → List String × List (String × Prim)
  | [], _, _, modified, result => (modified, result)
  | (key, defaultVal) :: rest, oracle, k, modified, result =>
    let response := inputResult (jsStringOfPrim defaultVal) (oracle k)
    let finalVal := if response = "" then defaultVal else castValue response defaultVal
    let modified2 :=
      if finalVal ≠ defaultVal then
        if key ∈ modified then modified else modified ++ [key]
      else modified
    promptUserAux rest oracle (k + 1) modified2 (result ++ [(key, finalVal)])

/-- `promptUser` of `src/prompt.ts`: prompts once per flat key in order with
the stringified default pre-filled, casts non-empty responses against the
default's runtime type, and tracks the keys whose final value differs from the
default.  `oracle i` is the raw text typed at the i-th prompt. -/
def promptUser (flatConfig : List (String × Prim)) (oracle : Nat → String) :
    List String × List (String × Prim) :=
  promptUserAux flatConfig oracle 0 [] []

end Prompt

/-! ### Validator (`HelmValuesSchema.safeParse` in `src/cli.ts`) -/

/-- Modelled from the spec: the zod library implementing
`HelmValuesSchema.safeParse` is external to the repository, so the Validator is
modelled from §4.5 of the specification over the schema declared in
`src/schema.ts`: a structural check plus a per-leaf constraint check, reporting
every offending path, unknown keys stripped from the accepted result. -/
def helmFieldErrors (es : List (String × Doc)) : List (List String × String) :=
  (match getAssoc es "replicaCount" with
    | some (.prim (.num n)) =>
      if 1 ≤ n ∧ n ≤ 10 then [] else [(["replicaCount"], "invalid literal union value")]
    | _ => [(["replicaCount"], "invalid literal union value")]) ++
  (match getAssoc es "image" with
    | some (.obj img) =>
      (match getAssoc img "repository" with
        | some (.prim (.str s)) =>
          if s ∈ ["nginx", "httpd", "redis"] then []
          else [(["image", "repository"], "invalid enum value")]
        | _ => [(["image", "repository"], "invalid enum value")]) ++
      (match getAssoc img "tag" with
        | some (.prim (.str _)) => []
        | _ => [(["image", "tag"], "expected string")]) ++
      (match getAssoc img "pullPolicy" with
        | some (.prim (.str s)) =>
          if s ∈ ["Always", "IfNotPresent", "Never"] then []
          else [(["image", "pullPolicy"], "invalid enum value")]
        | _ => [(["image", "pullPolicy"], "invalid enum value")])
    | _ => [(["image"], "expected object")]) ++
  (match getAssoc es "service" with
    | some (.obj svc) =>
      (match getAssoc svc "type" with
        | some (.prim (.str s)) =>
          if s ∈ ["ClusterIP", "NodePort", "LoadBalancer"] then []
          else [(["service", "type"], "invalid enum value")]
        | _ => [(["service", "type"], "invalid enum value")]) ++
      (match getAssoc svc "port" with
        | some (.prim (.num n)) =>
          if 1 ≤ n ∧ n ≤ 65535 then [] else [(["service", "port"], "number out of range")]
        | _ => [(["service", "port"], "expected number")])
    | _ => [(["service"], "expected object")])

/-- Modelled from the spec: the accepted result of a successful parse, with
unknown keys stripped and fields in schema declaration order. -/
def helmStrip (es : List (String × Doc)) : Doc :=
  Doc.obj
    [("replicaCount", (getAssoc es "replicaCount").getD (.prim .null)),
     ("image",
       match getAssoc es "image" with
       | some (.obj img) =>
         Doc.obj
           [("repository", (getAssoc img "repository").getD (.prim .null)),
            ("tag", (getAssoc img "tag").getD (.prim .null)),
            ("pullPolicy", (getAssoc img "pullPolicy").getD (.prim .null))]
       | _ => .prim .null),
     ("service",
       match getAssoc es "service" with
       | some (.obj svc) =>
         Doc.obj
           [("type", (getAssoc svc "type").getD (.prim .null)),
            ("port", (getAssoc svc "port").getD (.prim .null))]
       | _ => .prim .null)]

/-- Modelled from the spec: `validate(document) = HelmValuesSchema.safeParse`,
accepting with the stripped typed result or rejecting with the full list of
(path, reason) pairs. -/
def validateHelmValues (d : Doc) : Except (List (List String × String)) Doc :=
  match d with
  | .prim _ => .error [([], "expected object")]
  | .obj es =>
    match helmFieldErrors es with
    | [] => .ok (helmStrip es)
    | errs => .error errs

/-! ### Specification-side definitions

The following definitions are not translations of source functions; they are
the specification vocabulary the theorems are stated in: the leaf paths of a
document or of a schema, the dot-join of a path, and the well-formedness
predicates describing the domains of the claims. -/

/-- The (path, value) pairs of the leaves of a document, as segment lists in
depth-first entry order. -/
def leafPaths : List (String × Doc) → List (List String × Prim)
  | [] => []
  | (k, .prim p) :: rest => ([k], p) :: leafPaths rest
  | (k, .obj sub) :: rest =>
    (leafPaths sub).map (fun q => (k :: q.1, q.2)) ++ leafPaths rest

/-- Join path segments with dots (the inverse direction of `splitDot`). -/
def dotJoin : List String → String
  | [] => ""
  | [k] => k
  | k :: k2 :: rest => k ++ "." ++ dotJoin (k2 :: rest)

/-- Fold `joinPath` over the segments of a path, as `flatten` does while
descending. -/
def joinAll (pre : String) (ks : List String) : String := ks.foldl joinPath pre

/-- A field name without any dot. -/
def dotFree (s : String) : Bool := s.data.all (fun c => c != '.')

/-- The domain of the round-trip claim: every leaf value is a scalar and every
mapping is an internal node (non-empty), with the field names of each node
distinct, as they are in a JS object. -/
def wfEntries : List (String × Doc) → Bool
  | [] => true
  | (k, d) :: rest =>
    !(decide (k ∈ rest.map Prod.fst)) &&
    (match d with
     | .prim _ => true
     | .obj sub => !(decide (sub = [])) && wfEntries sub) &&
    wfEntries rest

/-- Every field name in the tree is non-empty and dot-free. -/
def keysOk : List (String × Doc) → Bool
  | [] => true
  | (k, d) :: rest =>
    !(decide (k = "")) && dotFree k &&
    (match d with
     | .prim _ => true
     | .obj sub => keysOk sub) &&
    keysOk rest

/-- `unflattenAux` after splitting: insert (segment path, value) pairs. -/
def insertSegs : Doc → List (List String × Prim) → Except Unit Doc
  | acc, [] => .ok acc
  | acc, (ks, v) :: rest =>
    match writePath acc ks v with
    | .ok acc2 => insertSegs acc2 rest
    | .error e => .error e

mutual

/-- The leaf paths implied by a schema, in declaration order. -/
def schemaLeafPaths : Schema → List (List String)
  | .obj fields => schemaFieldsPaths fields
  | _ => [[]]
termination_by s => sizeOf s

/-- The leaf paths of an object schema's field list. -/
def schemaFieldsPaths : List (String × Schema) → List (List String)
  | [] => []
  | (k, s) :: rest => (schemaLeafPaths s).map (k :: ·) ++ schemaFieldsPaths rest
termination_by fields => sizeOf fields

end

mutual

/-- The leaf paths of a document value. -/
def docLeafPaths : Doc → List (List String)
  | .prim _ => [[]]
  | .obj es => docEntriesPaths es
termination_by d => sizeOf d

/-- The leaf paths of a document's entry list. -/
def docEntriesPaths : List (String × Doc) → List (List String)
  | [] => []
  | (k, d) :: rest => (docLeafPaths d).map (k :: ·) ++ docEntriesPaths rest
termination_by es => sizeOf es

end

/-- The value `promptUser` stores for one key, as a function of the stored
default and the raw text typed at the prompt. -/
def finalValAt (defaultVal : Prim) (raw : String) : Prim :=
  let response := inputResult (jsStringOfPrim defaultVal) raw
  if response = "" then defaultVal else Prompt.castValue response defaultVal

/-- The result entries of a `promptUser` run, key by key. -/
def promptResults : List (String × Prim) → (Nat → String) → Nat → List (String × Prim)
  | [], _, _ => []
  | (key, d) :: rest, oracle, k =>
    (key, finalValAt d (oracle k)) :: promptResults rest oracle (k + 1)

/-- The modified keys of a `promptUser` run, in encounter order. -/
def promptModified : List (String × Prim) → (Nat → String) → Nat → List String
  | [], _, _ => []
  | (key, d) :: rest, oracle, k =>
    if finalValAt d (oracle k) ≠ d then key :: promptModified rest oracle (k + 1)
    else promptModified rest oracle (k + 1)

/-! ## Whitespace and digit lemmas -/

theorem dropWhile_eq_self_of_all {p : Char → Bool} {l : List Char}
    (h : ∀ c ∈ l, p c = false) : List.dropWhile p l = l := by
  cases l with
  | nil => rfl
  | cons c cs =>
    rw [List.dropWhile_cons, h c (by simp)]
    simp

theorem trimJs_all_not_ws {l : List Char} (h : ∀ c ∈ l, isJsWs c = false) :
    trimJs l = l := by
  rw [trimJs, dropWhile_eq_self_of_all h, dropWhile_eq_self_of_all, List.reverse_reverse]
  intro c hc
  exact h c (List.mem_reverse.mp hc)

theorem trimJs_all_ws {l : List Char} (h : ∀ c ∈ l, isJsWs c = true) :
    trimJs l = [] := by
  have h1 : l.dropWhile isJsWs = [] := List.dropWhile_eq_nil_iff.mpr h
  rw [trimJs, h1]
  rfl

theorem digit_not_ws {c : Char} (h : isDigitCh c = true) : isJsWs c = false := by
  simp only [isDigitCh, Bool.and_eq_true, decide_eq_true_eq] at h
  simp only [isJsWs, Bool.or_eq_false_iff, decide_eq_false_iff_not]
  refine ⟨⟨⟨⟨⟨⟨⟨?_, ?_⟩, ?_⟩, ?_⟩, ?_⟩, ?_⟩, ?_⟩, ?_⟩ <;>
    (rintro rfl; revert h; decide)

/-! ## C5, C9: the caster on numeric leaves -/

/-- C5: for every raw text string, casting against a numeric leaf kind never
fails: if the string coerces to a number the number is returned, and on a NaN
coercion the original string is returned unchanged — in both the schema-based
caster of `src/ui.ts` and the default-typed caster of `src/prompt.ts`. -/
theorem castValue_number_never_fails (s : String) :
    (∃ n : Int, jsToNumber s = some n ∧ castValue s Schema.number = Prim.num n ∧
      ∀ d : Int, Prompt.castValue s (Prim.num d) = Prim.num n) ∨
    (jsToNumber s = none ∧ castValue s Schema.number = Prim.str s ∧
      ∀ d : Int, Prompt.castValue s (Prim.num d) = Prim.str s) := by
  cases h : jsToNumber s with
  | some n =>
    exact Or.inl ⟨n, rfl, by simp [castValue, h], fun d => by simp [Prompt.castValue, h]⟩
  | none =>
    exact Or.inr ⟨rfl, by simp [castValue, h], fun d => by simp [Prompt.castValue, h]⟩

/-- C9: casting the empty string or any whitespace-only string against a
numeric leaf yields the number `0` (the `Number` coercion maps these to `0`,
not NaN), in both casters. -/
theorem cast_whitespace_number_zero (s : String) (h : ∀ c ∈ s.data, isJsWs c = true) :
    castValue s Schema.number = Prim.num 0 ∧
    ∀ d : Int, Prompt.castValue s (Prim.num d) = Prim.num 0 := by
  have hz : jsToNumber s = some 0 := by
    simp only [jsToNumber, trimJs_all_ws h, parseTrimmed]
  exact ⟨by simp [castValue, hz], fun d => by simp [Prompt.castValue, hz]⟩

theorem cast_whitespace_number_zero_witness :
    (∀ c ∈ (" ".data), isJsWs c = true) ∧ castValue " " Schema.number = Prim.num 0 ∧
      Prompt.castValue " " (Prim.num 7) = Prim.num 0 := by
  have h : ∀ c ∈ (" ".data), isJsWs c = true := by decide
  exact ⟨h, (cast_whitespace_number_zero " " h).1, (cast_whitespace_number_zero " " h).2 7⟩

/-! ## C8: validator determinism -/

/-- C8: validation is deterministic — two runs of the validator on the same
document produce the same verdict and, on rejection, the same path list.
(The embedding of the validator is a pure function, reflecting that the
source validation performs no I/O and consults no mutable state.) -/
theorem validateHelmValues_deterministic (d : Doc)
    (r1 r2 : Except (List (List String × String)) Doc)
    (h1 : r1 = validateHelmValues d) (h2 : r2 = validateHelmValues d) :
    r1 = r2 ∧ ∀ e1 e2, r1 = .error e1 → r2 = .error e2 → e1 = e2 := by
  subst h1
  subst h2
  refine ⟨rfl, fun e1 e2 g1 g2 => ?_⟩
  rw [g1] at g2
  injection g2

theorem validateHelmValues_deterministic_witness :
    validateHelmValues (Doc.prim Prim.null) = validateHelmValues (Doc.prim Prim.null) ∧
      ∀ e1 e2, validateHelmValues (Doc.prim Prim.null) = .error e1 →
        validateHelmValues (Doc.prim Prim.null) = .error e2 → e1 = e2 :=
  validateHelmValues_deterministic (Doc.prim Prim.null) _ _ rfl rfl

/-! ## Printing and re-parsing integer-valued numbers -/

theorem digitChar_isDigit {d : Nat} (h : d < 10) : isDigitCh (digitChar d) = true := by
  interval_cases d <;> decide

theorem digitVal_digitChar {d : Nat} (h : d < 10) : digitVal (digitChar d) = d := by
  interval_cases d <;> decide

theorem natToDigits_all_digit (n : Nat) : ∀ c ∈ natToDigits n, isDigitCh c = true := by
  rw [natToDigits]
  split
  next h =>
    intro c hc
    simp only [List.mem_singleton] at hc
    subst hc
    exact digitChar_isDigit h
  next h =>
    intro c hc
    rw [List.mem_append] at hc
    rcases hc with hc | hc
    · exact natToDigits_all_digit (n / 10) c hc
    · simp only [List.mem_singleton] at hc
      subst hc
      exact digitChar_isDigit (Nat.mod_lt _ (by omega))
termination_by n
decreasing_by exact Nat.div_lt_self (by omega) (by omega)

theorem natToDigits_ne_nil (n : Nat) : natToDigits n ≠ [] := by
  rw [natToDigits]
  split <;> simp

theorem digitsToNat_append_singleton (l : List Char) (c : Char) :
    digitsToNat (l ++ [c]) = 10 * digitsToNat l + digitVal c := by
  simp [digitsToNat, List.foldl_append]

theorem digitsToNat_natToDigits (n : Nat) : digitsToNat (natToDigits n) = n := by
  rw [natToDigits]
  split
  next h =>
    simp [digitsToNat, digitVal_digitChar h]
  next h =>
    rw [digitsToNat_append_singleton, digitsToNat_natToDigits (n / 10),
      digitVal_digitChar (Nat.mod_lt _ (by omega))]
    omega
termination_by n
decreasing_by exact Nat.div_lt_self (by omega) (by omega)

theorem parseTrimmed_digits {l : List Char} (hne : l ≠ [])
    (hall : ∀ c ∈ l, isDigitCh c = true) :
    parseTrimmed l = some ((digitsToNat l : Nat) : Int) := by
  obtain ⟨c, cs, rfl⟩ : ∃ c cs, l = c :: cs := by
    cases l with
    | nil => exact absurd rfl hne
    | cons c cs => exact ⟨c, cs, rfl⟩
  have hc : isDigitCh c = true := hall c (by simp)
  simp only [parseTrimmed]
  rw [if_neg, if_neg, if_pos]
  · simpa [List.all_eq_true] using hall
  · rintro rfl
    revert hc
    decide
  · rintro rfl
    revert hc
    decide

theorem parseTrimmed_neg_digits {l : List Char} (hne : l ≠ [])
    (hall : ∀ c ∈ l, isDigitCh c = true) :
    parseTrimmed ('-' :: l) = some (-((digitsToNat l : Nat) : Int)) := by
  simp only [parseTrimmed]
  rw [if_pos trivial, if_pos ⟨hne, by simpa [List.all_eq_true] using hall⟩]

theorem jsToNumber_jsNumToString (n : Int) : jsToNumber (jsNumToString n) = some n := by
  rw [jsNumToString]
  split
  next h =>
    have hd := natToDigits_all_digit (-n).toNat
    have htrim : trimJs ('-' :: natToDigits (-n).toNat) = '-' :: natToDigits (-n).toNat := by
      apply trimJs_all_not_ws
      intro c hc
      rcases List.mem_cons.mp hc with rfl | hc
      · decide
      · exact digit_not_ws (hd c hc)
    rw [jsToNumber, show (String.mk ('-' :: natToDigits (-n).toNat)).data =
      '-' :: natToDigits (-n).toNat from rfl, htrim,
      parseTrimmed_neg_digits (natToDigits_ne_nil _) hd, digitsToNat_natToDigits,
      Int.toNat_of_nonneg (by omega), neg_neg]
  next h =>
    have hd := natToDigits_all_digit n.toNat
    have htrim : trimJs (natToDigits n.toNat) = natToDigits n.toNat :=
      trimJs_all_not_ws (fun c hc => digit_not_ws (hd c hc))
    rw [jsToNumber, show (String.mk (natToDigits n.toNat)).data =
      natToDigits n.toNat from rfl, htrim,
      parseTrimmed_digits (natToDigits_ne_nil _) hd, digitsToNat_natToDigits,
      Int.toNat_of_nonneg (by omega)]

/-! ## C6: cast idempotence for already-typed values -/

/-- C6: casting the JS string form of a value already of the target leaf kind
yields the original value: the decimal form of any integer-valued number cast
against a numeric leaf gives the number back, `"true"`/`"false"` cast against
a boolean leaf give the booleans back, and any string cast against a string
leaf is returned verbatim; in particular `"42"` casts to `42`. -/
theorem cast_stringform_roundtrip :
    (∀ n : Int, castValue (jsNumToString n) Schema.number = Prim.num n) ∧
    (∀ b : Bool, castValue (jsStringOfPrim (Prim.bool b)) Schema.boolean = Prim.bool b) ∧
    (∀ s : String, castValue s Schema.string = Prim.str s) ∧
    castValue "42" Schema.number = Prim.num 42 ∧
    castValue "true" Schema.boolean = Prim.bool true ∧
    castValue "false" Schema.boolean = Prim.bool false := by
  refine ⟨fun n => ?_, fun b => ?_, fun s => rfl, by decide, by decide, by decide⟩
  · simp [castValue, jsToNumber_jsNumToString]
  · cases b <;> decide

/-! ## Splitting dot-joined paths -/

theorem splitDotAux_no_dot (l : List Char) (acc : List Char) (h : ∀ c ∈ l, c ≠ '.') :
    splitDotAux l acc = [String.mk (acc.reverse ++ l)] := by
  induction l generalizing acc with
  | nil => simp [splitDotAux]
  | cons c cs ih =>
    rw [splitDotAux, if_neg (h c (by simp)), ih _ (fun x hx => h x (by simp [hx]))]
    simp

theorem splitDotAux_dot (l1 l2 : List Char) (acc : List Char) (h : ∀ c ∈ l1, c ≠ '.') :
    splitDotAux (l1 ++ '.' :: l2) acc =
      String.mk (acc.reverse ++ l1) :: splitDotAux l2 [] := by
  induction l1 generalizing acc with
  | nil => simp [splitDotAux]
  | cons c cs ih =>
    rw [List.cons_append, splitDotAux, if_neg (h c (by simp)),
      ih _ (fun x hx => h x (by simp [hx]))]
    simp

theorem dotFree_chars {s : String} (h : dotFree s = true) : ∀ c ∈ s.data, c ≠ '.' := by
  intro c hc
  have hx := List.all_eq_true.mp h c hc
  simpa using hx

theorem splitDot_single {a : String} (h : dotFree a = true) : splitDot a = [a] := by
  rw [splitDot, splitDotAux_no_dot _ _ (dotFree_chars h)]
  rfl

theorem splitDot_pair {a b : String} (ha : dotFree a = true) (hb : dotFree b = true) :
    splitDot (a ++ "." ++ b) = [a, b] := by
  have hd : (a ++ "." ++ b).data = a.data ++ '.' :: b.data := by
    simp [String.data_append]
  rw [splitDot, hd, splitDotAux_dot _ _ _ (dotFree_chars ha),
    show splitDotAux b.data [] = splitDot b from rfl, splitDot_single hb]
  rfl

/-! ## C2: colliding flat paths in `unflatten` -/

/-- C2 counterexample: with both `a` (bound to the truthy number `1`) and
`a.b` present, `unflatten` does not silently overwrite the leaf — in strict
mode the assignment `acc["b"] = 2` on the primitive `1` throws a `TypeError`,
so `unflatten` errors instead of succeeding. -/
theorem unflatten_prefix_collision_errors :
    unflatten [("a", Prim.num 1), ("a.b", Prim.num 2)] = Except.error () := rfl

/-- C2 amended: for a flat map binding a path and its dot-extension, the
behaviour of `unflatten` depends on the truthiness of the leaf at the shorter
path: a falsy leaf value (`0`, `""`, `false`, `null`) is silently overwritten
by the intermediate mapping and `unflatten` succeeds; a truthy leaf value is
kept by `acc[key] = acc[key] || {}`, and the subsequent property assignment on
the primitive throws a `TypeError` (strict mode), so `unflatten` errors. -/
theorem unflatten_prefix_collision (a b : String) (v w : Prim)
    (ha : dotFree a = true) (hb : dotFree b = true) :
    unflatten [(a, v), (a ++ "." ++ b, w)] =
      if truthy (.prim v) then Except.error ()
      else Except.ok (.obj [(a, .obj [(b, .prim w)])]) := by
  have h1 : writePath (Doc.obj []) (splitDot a) v = .ok (.obj [(a, .prim v)]) := by
    rw [splitDot_single ha]
    simp [writePath, setAssoc]
  have h2 : getAssoc [(a, Doc.prim v)] a = some (.prim v) := by simp [getAssoc]
  cases htr : truthy (.prim v) with
  | true =>
    have h3 : writePath (Doc.obj [(a, .prim v)]) (splitDot (a ++ "." ++ b)) w =
        .error () := by
      rw [splitDot_pair ha hb]
      simp [writePath, childFor, h2, htr]
    simp [unflatten, unflattenAux, h1, h3, htr]
  | false =>
    have h3 : writePath (Doc.obj [(a, .prim v)]) (splitDot (a ++ "." ++ b)) w =
        .ok (.obj [(a, .obj [(b, .prim w)])]) := by
      rw [splitDot_pair ha hb]
      simp [writePath, childFor, h2, htr, setAssoc]
    simp [unflatten, unflattenAux, h1, h3, htr]

theorem unflatten_prefix_collision_witness :
    (dotFree "a" = true ∧ dotFree "b" = true) ∧
    unflatten [("a", Prim.num 0), ("a" ++ "." ++ "b", Prim.num 2)] =
      if truthy (.prim (Prim.num 0)) then Except.error ()
      else Except.ok (.obj [("a", .obj [("b", .prim (Prim.num 2))])]) :=
  ⟨⟨rfl, rfl⟩, unflatten_prefix_collision "a" "b" (Prim.num 0) (Prim.num 2) rfl rfl⟩

/-! ## C7: shape-mismatch recovery in the collector -/

theorem promptFields_prim_default (s : Prim) (fields : List (String × Schema))
    (pathPre : String) (oracle : Nat → Resp) (k : Nat) :
    promptFields (some (.prim s)) fields pathPre oracle k =
      promptFields none fields pathPre oracle k := by
  induction fields generalizing k with
  | nil => simp [promptFields]
  | cons head rest ih =>
    obtain ⟨key, fs⟩ := head
    simp only [promptFields]
    rw [show jsIndex (some (.prim s)) key = jsIndex none key from rfl, ih]

/-- C7 counterexample: at a numeric leaf with no default value the collector
does not prompt with no pre-fill — the prompt is pre-filled with the string
`"undefined"` (the JS stringification of the missing value), so an empty
submission collects `"undefined"` routed through the caster (a string, since
`Number("undefined")` is NaN) instead of a value gathered without pre-fill. -/
theorem prompt_missing_default_prefills_undefined :
    promptFromSchema none Schema.number "p" (fun _ => ⟨0, ""⟩) 0 =
      (.prim (.str "undefined"), 1) := by
  simp only [promptFromSchema]
  rfl

/-- C7 amended: shape mismatches never abort the walk; a non-mapping default
at an `Object` node is treated as absent for every child lookup (the walk
proceeds exactly as with no default), and a leaf with no default still
proceeds, but its prompt is pre-filled with the string `"undefined"` rather
than left empty, so an empty submission collects the cast of `"undefined"`. -/
theorem promptFromSchema_mismatch_recovery :
    (∀ (s : Prim) (fields : List (String × Schema)) (pathPre : String)
        (oracle : Nat → Resp) (k : Nat),
      promptFromSchema (some (.prim s)) (.obj fields) pathPre oracle k =
        promptFromSchema none (.obj fields) pathPre oracle k) ∧
    (∀ (schema : Schema) (pathPre : String) (oracle : Nat → Resp) (k : Nat),
      extractOptions schema = [] → (∀ fields, schema ≠ .obj fields) →
      (oracle k).txt = "" →
      promptFromSchema none schema pathPre oracle k =
        (.prim (castValue "undefined" schema), k + 1)) := by
  constructor
  · intro s fields pathPre oracle k
    simp only [promptFromSchema]
    rw [promptFields_prim_default]
  · intro schema pathPre oracle k hopts hnotobj htxt
    cases schema with
    | obj fields => exact absurd rfl (hnotobj fields)
    | enum opts =>
      have : opts = [] := by simpa [extractOptions] using hopts
      subst this
      simp [promptFromSchema, leafPrompt, extractOptions, jsDisplay, inputResult, htxt]
    | union opts =>
      have : opts = [] := by simpa [extractOptions] using hopts
      subst this
      simp [promptFromSchema, leafPrompt, extractOptions, jsDisplay, inputResult, htxt]
    | number =>
      simp [promptFromSchema, leafPrompt, extractOptions, jsDisplay, inputResult, htxt]
    | boolean =>
      simp [promptFromSchema, leafPrompt, extractOptions, jsDisplay, inputResult, htxt]
    | string =>
      simp [promptFromSchema, leafPrompt, extractOptions, jsDisplay, inputResult, htxt]

theorem promptFromSchema_mismatch_recovery_witness :
    (promptFromSchema (some (.prim (.num 5))) (.obj [("x", Schema.number)]) ""
        (fun _ => ⟨0, "3"⟩) 0 =
      promptFromSchema none (.obj [("x", Schema.number)]) "" (fun _ => ⟨0, "3"⟩) 0) ∧
    promptFromSchema none Schema.number "q" (fun _ => ⟨0, ""⟩) 5 =
      (.prim (castValue "undefined" Schema.number), 6) :=
  ⟨promptFromSchema_mismatch_recovery.1 (.num 5) [("x", Schema.number)] "" _ 0,
   promptFromSchema_mismatch_recovery.2 Schema.number "q" _ 5 rfl
     (fun _ h => nomatch h) rfl⟩

/-! ## C3: leaf coverage of the collector -/

theorem leafPrompt_isPrim (currentValue : Option Doc) (schema : Schema)
    (oracle : Nat → Resp) (k : Nat) :
    ∃ p : Prim, (leafPrompt currentValue schema oracle k).1 = .prim p := by
  simp only [leafPrompt]
  split_ifs <;> exact ⟨_, rfl⟩

mutual

theorem prompt_paths_aux (schema : Schema) (currentValue : Option Doc)
    (pathPre : String) (oracle : Nat → Resp) (k : Nat) :
    docLeafPaths (promptFromSchema currentValue schema pathPre oracle k).1 =
      schemaLeafPaths schema := by
  cases schema with
  | obj fields =>
    simp only [promptFromSchema, docLeafPaths, schemaLeafPaths]
    exact promptFields_paths_aux fields currentValue pathPre oracle k
  | enum opts =>
    obtain ⟨p, hp⟩ := leafPrompt_isPrim currentValue (.enum opts) oracle k
    simp only [promptFromSchema, hp, docLeafPaths, schemaLeafPaths]
  | union opts =>
    obtain ⟨p, hp⟩ := leafPrompt_isPrim currentValue (.union opts) oracle k
    simp only [promptFromSchema, hp, docLeafPaths, schemaLeafPaths]
  | number =>
    obtain ⟨p, hp⟩ := leafPrompt_isPrim currentValue .number oracle k
    simp only [promptFromSchema, hp, docLeafPaths, schemaLeafPaths]
  | boolean =>
    obtain ⟨p, hp⟩ := leafPrompt_isPrim currentValue .boolean oracle k
    simp only [promptFromSchema, hp, docLeafPaths, schemaLeafPaths]
  | string =>
    obtain ⟨p, hp⟩ := leafPrompt_isPrim currentValue .string oracle k
    simp only [promptFromSchema, hp, docLeafPaths, schemaLeafPaths]
termination_by sizeOf schema

theorem promptFields_paths_aux (fields : List (String × Schema))
    (currentValue : Option Doc) (pathPre : String) (oracle : Nat → Resp) (k : Nat) :
    docEntriesPaths (promptFields currentValue fields pathPre oracle k).1 =
      schemaFieldsPaths fields := by
  cases fields with
  | nil => simp [promptFields, docEntriesPaths, schemaFieldsPaths]
  | cons head rest =>
    obtain ⟨key, fs⟩ := head
    simp only [promptFields, docEntriesPaths, schemaFieldsPaths]
    rw [prompt_paths_aux fs (jsIndex currentValue key) (joinPath pathPre key) oracle k,
      promptFields_paths_aux rest currentValue pathPre oracle
        (promptFromSchema (jsIndex currentValue key) fs (joinPath pathPre key) oracle k).2]
termination_by sizeOf fields

end

/-- C3: for every schema, every default document and every sequence of prompt
answers, the document collected by `promptFromSchema` has exactly the leaf
paths implied by the schema — every schema leaf is prompted for and present,
no leaf is skipped, and no key outside the schema (in particular no extra key
of the default document) appears in the result. -/
theorem promptFromSchema_leaf_coverage (schema : Schema) (currentValue : Option Doc)
    (pathPre : String) (oracle : Nat → Resp) (k : Nat) :
    docLeafPaths (promptFromSchema currentValue schema pathPre oracle k).1 =
      schemaLeafPaths schema :=
  prompt_paths_aux schema currentValue pathPre oracle k

/-! ## C4: enumerated-choice closure -/

/-- The answer sequence of the C4 counterexample: pick the first choice at the
select prompt, then type `zzz` at the follow-up input prompt. -/
def escOracle : Nat → Resp := fun k => if k = 0 then ⟨0, ""⟩ else ⟨0, "zzz"⟩

/-- C4 counterexample: on the enumerated leaf whose declared option set is
`["__custom__"]`, selecting the first option — a non-escape position of the
offered list — does not yield that option: the collected value is the typed
free text `"zzz"`, which is not a member of the declared option set, because
the option's value collides with the sentinel of the synthetic escape choice
(`selected === "__custom__"`). -/
theorem select_custom_sentinel_collision :
    (promptFromSchema none (.enum ["__custom__"]) "" escOracle 0).1 =
        .prim (.str "zzz") ∧
      Prim.str "zzz" ∉ extractOptions (.enum ["__custom__"]) := by
  constructor
  · simp only [promptFromSchema]
    rfl
  · decide

/-- C4 amended: selecting a non-escape option of an enumerated leaf (an
`EnumChoice` or a `LiteralUnion`) yields that option verbatim — a member of
the declared option set, not routed through the caster — provided the option
is not itself the literal string `"__custom__"`, which the code cannot
distinguish from the synthetic escape choice. -/
theorem select_option_verbatim (schema : Schema) (currentValue : Option Doc)
    (pathPre : String) (oracle : Nat → Resp) (k i : Nat)
    (hi : i < (extractOptions schema).length)
    (hsel : (oracle k).sel = i)
    (hne : (extractOptions schema).get ⟨i, hi⟩ ≠ Prim.str "__custom__") :
    promptFromSchema currentValue schema pathPre oracle k =
      (.prim ((extractOptions schema).get ⟨i, hi⟩), k + 1) ∧
    (extractOptions schema).get ⟨i, hi⟩ ∈ extractOptions schema := by
  refine ⟨?_, List.get_mem _ _ _⟩
  have hpick : pickChoice (extractOptions schema) (oracle k).sel =
      (extractOptions schema).get ⟨i, hi⟩ := by
    rw [hsel, pickChoice, List.getD_append _ _ _ _ hi, List.getD_eq_getElem _ _ hi]
    simp
  cases schema with
  | obj fields => simp [extractOptions] at hi
  | enum opts =>
    simp only [promptFromSchema, leafPrompt]
    rw [if_pos (by omega), hpick, if_neg hne]
  | union opts =>
    simp only [promptFromSchema, leafPrompt]
    rw [if_pos (by omega), hpick, if_neg hne]
  | number => simp [extractOptions] at hi
  | boolean => simp [extractOptions] at hi
  | string => simp [extractOptions] at hi

theorem select_option_verbatim_witness :
    promptFromSchema none (.enum ["nginx", "httpd"]) "" (fun _ => ⟨0, ""⟩) 0 =
      (.prim (.str "nginx"), 1) ∧
    Prim.str "nginx" ∈ extractOptions (.enum ["nginx", "httpd"]) :=
  select_option_verbatim (.enum ["nginx", "httpd"]) none "" (fun _ => ⟨0, ""⟩) 0 0
    (by decide) rfl (by decide)

/-! ## C10: the legacy flat collector -/

theorem promptResults_keys (cfg : List (String × Prim)) (oracle : Nat → String) (k : Nat) :
    (promptResults cfg oracle k).map Prod.fst = cfg.map Prod.fst := by
  induction cfg generalizing k with
  | nil => simp [promptResults]
  | cons head rest ih =>
    obtain ⟨key, d⟩ := head
    simp [promptResults, ih]

theorem promptModified_subset (cfg : List (String × Prim)) (oracle : Nat → String) (k : Nat) :
    ∀ m ∈ promptModified cfg oracle k, m ∈ cfg.map Prod.fst := by
  induction cfg generalizing k with
  | nil => simp [promptModified]
  | cons head rest ih =>
    obtain ⟨key, d⟩ := head
    intro m hm
    simp only [promptModified] at hm
    by_cases hf : finalValAt d (oracle k) ≠ d
    · rw [if_pos hf] at hm
      rcases List.mem_cons.mp hm with rfl | hm
      · simp
      · exact List.mem_cons_of_mem _ (ih _ m hm)
    · rw [if_neg hf] at hm
      exact List.mem_cons_of_mem _ (ih _ m hm)

theorem nodup_fst_cons {A : Type} {key : String} {d : A} {rest : List (String × A)}
    (hnd : (((key, d) :: rest).map Prod.fst).Nodup) :
    key ∉ rest.map Prod.fst ∧ (rest.map Prod.fst).Nodup := by
  rw [List.map_cons] at hnd
  exact List.nodup_cons.mp hnd

theorem finalValAt_eq (d : Prim) (raw : String) :
    (if inputResult (jsStringOfPrim d) raw = "" then d
     else Prompt.castValue (inputResult (jsStringOfPrim d) raw) d) = finalValAt d raw := rfl

theorem inputResult_empty (d : String) : inputResult d "" = d := rfl

theorem promptUserAux_spec (cfg : List (String × Prim)) (oracle : Nat → String)
    (k : Nat) (modified : List String) (result : List (String × Prim))
    (hnd : (cfg.map Prod.fst).Nodup)
    (hdisj : ∀ m ∈ modified, m ∉ cfg.map Prod.fst) :
    Prompt.promptUserAux cfg oracle k modified result =
      (modified ++ promptModified cfg oracle k,
       result ++ promptResults cfg oracle k) := by
  induction cfg generalizing k modified result with
  | nil => simp [Prompt.promptUserAux, promptModified, promptResults]
  | cons head rest ih =>
    obtain ⟨key, d⟩ := head
    have hkey : key ∉ rest.map Prod.fst := (nodup_fst_cons hnd).1
    have hnd2 : (rest.map Prod.fst).Nodup := (nodup_fst_cons hnd).2
    simp only [Prompt.promptUserAux, promptModified, promptResults]
    rw [finalValAt_eq]
    by_cases hf : finalValAt d (oracle k) ≠ d
    · have hknm : key ∉ modified := fun hin => hdisj key hin (by simp)
      rw [if_pos hf, if_pos hf, if_neg hknm]
      rw [ih (k + 1) (modified ++ [key]) _ hnd2 ?hdisj2]
      · simp
      case hdisj2 =>
        intro m hm
        rcases List.mem_append.mp hm with hm | hm
        · intro hr
          exact hdisj m hm (List.mem_cons_of_mem _ hr)
        · simp only [List.mem_singleton] at hm
          subst hm
          exact fun hr => hkey hr
    · rw [if_neg hf, if_neg hf]
      rw [ih (k + 1) modified _ hnd2 ?hdisj3]
      · simp
      case hdisj3 =>
        intro m hm hr
        exact hdisj m hm (List.mem_cons_of_mem _ hr)

theorem promptModified_iff (cfg : List (String × Prim)) (oracle : Nat → String)
    (k : Nat) (hnd : (cfg.map Prod.fst).Nodup) :
    ∀ kd ∈ cfg, (kd.1 ∈ promptModified cfg oracle k ↔
      getAssoc (promptResults cfg oracle k) kd.1 ≠ some kd.2) := by
  induction cfg generalizing k with
  | nil => simp
  | cons head rest ih =>
    obtain ⟨key, d⟩ := head
    have hkey : key ∉ rest.map Prod.fst := (nodup_fst_cons hnd).1
    have hnd2 : (rest.map Prod.fst).Nodup := (nodup_fst_cons hnd).2
    intro kd hkd
    rcases List.mem_cons.mp hkd with rfl | hkd
    · have hnotin : key ∉ promptModified rest oracle (k + 1) :=
        fun hin => hkey (promptModified_subset rest oracle (k + 1) key hin)
      simp only [promptModified, promptResults, getAssoc, if_pos rfl]
      by_cases hf : finalValAt d (oracle k) ≠ d
      · rw [if_pos hf]
        simp only [List.mem_cons, true_or, true_iff]
        intro hc
        exact hf (Option.some.inj hc.symm).symm
      · rw [if_neg hf]
        push_neg at hf
        simp [hf, hnotin]
    · have hne : key ≠ kd.1 := by
        intro hq
        exact hkey (hq ▸ List.mem_map_of_mem Prod.fst hkd)
      have htail := ih (k + 1) hnd2 kd hkd
      simp only [promptModified, promptResults, getAssoc, if_neg hne]
      by_cases hf : finalValAt d (oracle k) ≠ d
      · rw [if_pos hf]
        rw [List.mem_cons]
        constructor
        · intro hc
          rcases hc with hc | hc
          · exact absurd hc.symm hne
          · exact htail.mp hc
        · intro hc
          exact Or.inr (htail.mpr hc)
      · rw [if_neg hf]
        exact htail

theorem jsNumToString_ne_empty (n : Int) : jsNumToString n ≠ "" := by
  rw [jsNumToString]
  split
  · intro h
    have hd := congrArg String.data h
    exact absurd hd (by simp)
  · intro h
    have hd := congrArg String.data h
    obtain ⟨c, cs, hcons⟩ : ∃ c cs, natToDigits n.toNat = c :: cs := by
      cases hh : natToDigits n.toNat with
      | nil => exact absurd hh (natToDigits_ne_nil _)
      | cons c cs => exact ⟨c, cs, rfl⟩
    rw [show (String.mk (natToDigits n.toNat)).data = natToDigits n.toNat from rfl,
      hcons] at hd
    exact absurd hd (by simp)

theorem finalValAt_empty (d : Prim) (hd : d ≠ Prim.null) : finalValAt d "" = d := by
  cases d with
  | num n =>
    simp only [finalValAt, inputResult_empty, jsStringOfPrim]
    rw [if_neg (jsNumToString_ne_empty n)]
    simp [Prompt.castValue, jsToNumber_jsNumToString]
  | str s =>
    by_cases hs : s = ""
    · subst hs
      decide
    · simp only [finalValAt, inputResult_empty, jsStringOfPrim]
      rw [if_neg hs]
      rfl
  | bool b => cases b <;> decide
  | null => exact absurd rfl hd

theorem promptResults_empty_keeps (cfg : List (String × Prim)) (oracle : Nat → String)
    (k : Nat) (hnd : (cfg.map Prod.fst).Nodup) :
    ∀ i, (hi : i < cfg.length) → oracle (k + i) = "" →
      (cfg.get ⟨i, hi⟩).2 ≠ Prim.null →
      getAssoc (promptResults cfg oracle k) (cfg.get ⟨i, hi⟩).1 =
        some ((cfg.get ⟨i, hi⟩).2) := by
  induction cfg generalizing k with
  | nil =>
    intro i hi
    simp at hi
  | cons head rest ih =>
    obtain ⟨key, d⟩ := head
    have hkey : key ∉ rest.map Prod.fst := (nodup_fst_cons hnd).1
    have hnd2 : (rest.map Prod.fst).Nodup := (nodup_fst_cons hnd).2
    intro i hi hor hnn
    cases i with
    | zero =>
      rw [Nat.add_zero] at hor
      simp only [List.get] at hnn ⊢
      simp [promptResults, getAssoc, hor, finalValAt_empty d hnn]
    | succ j =>
      have hj : j < rest.length := by simpa using hi
      have hmem : (rest.get ⟨j, hj⟩) ∈ rest := List.get_mem _ _ _
      have hne : key ≠ (rest.get ⟨j, hj⟩).1 := by
        intro hq
        exact hkey (hq ▸ List.mem_map_of_mem Prod.fst hmem)
      simp only [List.get] at hnn ⊢
      simp only [promptResults, getAssoc, if_neg hne]
      have hor2 : oracle ((k + 1) + j) = "" := by
        rw [show (k + 1) + j = k + (j + 1) from by omega]
        exact hor
      exact ih (k + 1) hnd2 j hj hor2 hnn

/-- C10 counterexample: on the flat map binding `k` to `null`, an empty
response does not keep the default and does not leave the key out of
`modifiedKeys`: the inquirer pre-fill is the string `"null"`, the caster
returns it verbatim (a `null` default is neither number- nor boolean-typed),
so the stored value is the string `"null"` and `k` is marked modified. -/
theorem promptUser_null_default_modified :
    Prompt.promptUser [("k", Prim.null)] (fun _ => "") =
      (["k"], [("k", Prim.str "null")]) := rfl

/-- C10 amended: for every flat configuration map with distinct keys, the
result's key list is exactly the input's key list, and `modifiedKeys` contains
a key iff the stored value for that key differs from the input default; an
empty response keeps the default and leaves the key out of `modifiedKeys`
whenever the default is a number, boolean or string (its pre-filled string
form round-trips through the caster) — a `null` default, by contrast, comes
back as the string `"null"` and is marked modified. -/
theorem promptUser_spec (cfg : List (String × Prim)) (oracle : Nat → String)
    (hnd : (cfg.map Prod.fst).Nodup) :
    ((Prompt.promptUser cfg oracle).2.map Prod.fst = cfg.map Prod.fst) ∧
    (∀ kd ∈ cfg, (kd.1 ∈ (Prompt.promptUser cfg oracle).1 ↔
        getAssoc (Prompt.promptUser cfg oracle).2 kd.1 ≠ some kd.2)) ∧
    (∀ i, (hi : i < cfg.length) → oracle i = "" →
      (cfg.get ⟨i, hi⟩).2 ≠ Prim.null →
      getAssoc (Prompt.promptUser cfg oracle).2 (cfg.get ⟨i, hi⟩).1 =
        some ((cfg.get ⟨i, hi⟩).2)) := by
  have haux := promptUserAux_spec cfg oracle 0 [] [] hnd (by simp)
  rw [Prompt.promptUser, haux]
  simp only [List.nil_append]
  refine ⟨promptResults_keys cfg oracle 0, promptModified_iff cfg oracle 0 hnd, ?_⟩
  intro i hi hor hnn
  exact promptResults_empty_keeps cfg oracle 0 hnd i hi (by simpa using hor) hnn

theorem promptUser_spec_witness :
    (([("a", Prim.num 5), ("b", Prim.str "x")].map Prod.fst).Nodup) ∧
    ((Prompt.promptUser [("a", Prim.num 5), ("b", Prim.str "x")] (fun _ => "")).2.map
        Prod.fst = [("a", Prim.num 5), ("b", Prim.str "x")].map Prod.fst) ∧
    (∀ kd ∈ [("a", Prim.num 5), ("b", Prim.str "x")],
      (kd.1 ∈ (Prompt.promptUser [("a", Prim.num 5), ("b", Prim.str "x")] (fun _ => "")).1 ↔
        getAssoc (Prompt.promptUser [("a", Prim.num 5), ("b", Prim.str "x")]
          (fun _ => "")).2 kd.1 ≠ some kd.2)) := by
  have hnd : (([("a", Prim.num 5), ("b", Prim.str "x")]).map Prod.fst).Nodup := by decide
  have h := promptUser_spec [("a", Prim.num 5), ("b", Prim.str "x")] (fun _ => "") hnd
  exact ⟨hnd, h.1, h.2.1⟩

/-! ## C1: the flatten/unflatten round trip

The proof characterises `flatten` as the dot-joined leaf paths of the
document (`flatten_eq`), shows the joined paths split back to their segments
(`splitDot_dotJoin`), and rebuilds the document by inserting the segment
paths in order (`insertSegs_leafPaths`). -/

theorem setAssoc_of_not_mem {α : Type} (l : List (String × α)) (k : String) (v : α)
    (h : k ∉ l.map Prod.fst) : setAssoc l k v = l ++ [(k, v)] := by
  induction l with
  | nil => rfl
  | cons head rest ih =>
    obtain ⟨k2, v2⟩ := head
    have hne : k2 ≠ k := by
      intro hq
      exact h (by simp [hq])
    rw [setAssoc, if_neg hne, ih (fun hm => h (by simp [hm]))]
    rfl

theorem assignAll_cons {α : Type} (l : List (String × α)) (k : String) (v : α)
    (rest : List (String × α)) :
    assignAll l ((k, v) :: rest) = assignAll (setAssoc l k v) rest := rfl

theorem assignAll_append {α : Type} (l xs : List (String × α))
    (hnd : (xs.map Prod.fst).Nodup)
    (hdisj : ∀ k ∈ xs.map Prod.fst, k ∉ l.map Prod.fst) :
    assignAll l xs = l ++ xs := by
  induction xs generalizing l with
  | nil => simp [assignAll]
  | cons head rest ih =>
    obtain ⟨k, v⟩ := head
    have hk : k ∉ l.map Prod.fst := hdisj k (by simp)
    have hkr : k ∉ rest.map Prod.fst := (nodup_fst_cons hnd).1
    have hnd2 := (nodup_fst_cons hnd).2
    rw [assignAll_cons, setAssoc_of_not_mem l k v hk, ih (l ++ [(k, v)]) hnd2 ?hd2]
    · simp
    case hd2 =>
      intro k2 hk2 hmem
      rw [List.map_append, List.mem_append] at hmem
      rcases hmem with hmem | hmem
      · exact hdisj k2 (by simp [hk2]) hmem
      · simp only [List.map_cons, List.map_nil, List.mem_singleton] at hmem
        subst hmem
        exact hkr hk2

theorem getAssoc_append_left {α : Type} (l1 l2 : List (String × α)) (k : String)
    (h : k ∉ l1.map Prod.fst) : getAssoc (l1 ++ l2) k = getAssoc l2 k := by
  induction l1 with
  | nil => rfl
  | cons head rest ih =>
    obtain ⟨k2, v2⟩ := head
    have hne : k2 ≠ k := fun hq => h (by simp [hq])
    rw [List.cons_append, getAssoc, if_neg hne, ih (fun hm => h (by simp [hm]))]

theorem setAssoc_append_self {α : Type} (l1 : List (String × α)) (k : String)
    (x v : α) (h : k ∉ l1.map Prod.fst) :
    setAssoc (l1 ++ [(k, x)]) k v = l1 ++ [(k, v)] := by
  induction l1 with
  | nil => simp [setAssoc]
  | cons head rest ih =>
    obtain ⟨k2, v2⟩ := head
    have hne : k2 ≠ k := fun hq => h (by simp [hq])
    rw [List.cons_append, setAssoc, if_neg hne, ih (fun hm => h (by simp [hm]))]
    rfl

theorem joinAll_cons (pre k : String) (ks : List String) :
    joinAll pre (k :: ks) = joinAll (joinPath pre k) ks := rfl

theorem joinAll_single (pre k : String) : joinAll pre [k] = joinPath pre k := rfl

theorem flatten_eq : ∀ (es : List (String × Doc)) (pre : String)
    (acc : List (String × Prim)),
    ((leafPaths es).map (fun q => joinAll pre q.1)).Nodup →
    (∀ x ∈ (leafPaths es).map (fun q => joinAll pre q.1), x ∉ acc.map Prod.fst) →
    flatten es pre acc = acc ++ (leafPaths es).map (fun q => (joinAll pre q.1, q.2))
  | [], pre, acc, _, _ => by simp [flatten, leafPaths]
  | (key, .prim p) :: rest, pre, acc, hnd, hdisj => by
    simp only [leafPaths, List.map_cons, joinAll_single] at hnd hdisj ⊢
    have hh := List.nodup_cons.mp hnd
    have hk : joinPath pre key ∉ acc.map Prod.fst := hdisj _ (by simp)
    rw [flatten, setAssoc_of_not_mem acc _ p hk,
      flatten_eq rest pre (acc ++ [(joinPath pre key, p)]) hh.2 ?hd1]
    · simp
    case hd1 =>
      intro x hx hmem
      rw [List.map_append, List.mem_append] at hmem
      rcases hmem with hmem | hmem
      · exact hdisj x (by simp [hx]) hmem
      · simp only [List.map_cons, List.map_nil, List.mem_singleton] at hmem
        subst hmem
        exact hh.1 hx
  | (key, .obj sub) :: rest, pre, acc, hnd, hdisj => by
    simp only [leafPaths, List.map_append, List.map_map, List.map_cons] at hnd hdisj ⊢
    rw [List.nodup_append] at hnd
    obtain ⟨hnd1, hnd2, hndd⟩ := hnd
    have hndin : ((leafPaths sub).map (fun q => joinAll (joinPath pre key) q.1)).Nodup :=
      hnd1
    have hinner := flatten_eq sub (joinPath pre key) [] hndin (by simp)
    rw [List.nil_append] at hinner
    have hbkeys :
        (((leafPaths sub).map (fun q => (joinAll (joinPath pre key) q.1, q.2))).map
          Prod.fst).Nodup := by
      rw [List.map_map]
      exact hnd1
    have hbdisj : ∀ k2 ∈ ((leafPaths sub).map
        (fun q => (joinAll (joinPath pre key) q.1, q.2))).map Prod.fst,
        k2 ∉ acc.map Prod.fst := by
      rw [List.map_map]
      intro k2 hk2
      exact hdisj k2 (List.mem_append.mpr (Or.inl hk2))
    rw [flatten, hinner, assignAll_append acc _ hbkeys hbdisj,
      flatten_eq rest pre _ hnd2 ?hd2]
    · simp only [List.append_assoc, List.map_map]
      congr 2
    case hd2 =>
      intro x hx hmem
      rw [List.map_append, List.mem_append] at hmem
      rcases hmem with hmem | hmem
      · exact hdisj x (List.mem_append.mpr (Or.inr hx)) hmem
      · rw [List.map_map] at hmem
        exact (List.disjoint_right.mp hndd hx) hmem
termination_by es => sizeOf es

theorem wfEntries_cons {k : String} {d : Doc} {rest : List (String × Doc)}
    (h : wfEntries ((k, d) :: rest) = true) :
    k ∉ rest.map Prod.fst ∧
    (∀ sub, d = .obj sub → sub ≠ [] ∧ wfEntries sub = true) ∧
    wfEntries rest = true := by
  cases d with
  | prim p =>
    simp only [wfEntries, Bool.and_eq_true, Bool.not_eq_true',
      decide_eq_false_iff_not] at h
    refine ⟨?_, fun sub hsub => Doc.noConfusion hsub, ?_⟩ <;> tauto
  | obj sub =>
    simp only [wfEntries, Bool.and_eq_true, Bool.not_eq_true',
      decide_eq_false_iff_not] at h
    refine ⟨?_, fun sub2 hsub => ?_, ?_⟩
    · tauto
    · injection hsub with hs
      subst hs
      constructor <;> tauto
    · tauto

theorem keysOk_cons {k : String} {d : Doc} {rest : List (String × Doc)}
    (h : keysOk ((k, d) :: rest) = true) :
    k ≠ "" ∧ dotFree k = true ∧
    (∀ sub, d = .obj sub → keysOk sub = true) ∧ keysOk rest = true := by
  cases d with
  | prim p =>
    simp only [keysOk, Bool.and_eq_true, Bool.not_eq_true',
      decide_eq_false_iff_not] at h
    refine ⟨?_, ?_, fun sub hsub => Doc.noConfusion hsub, ?_⟩ <;> tauto
  | obj sub =>
    simp only [keysOk, Bool.and_eq_true, Bool.not_eq_true',
      decide_eq_false_iff_not] at h
    refine ⟨?_, ?_, fun sub2 hsub => ?_, ?_⟩
    · tauto
    · tauto
    · injection hsub with hs
      subst hs
      tauto
    · tauto

theorem leafPaths_fst_ne_nil : ∀ (es : List (String × Doc)), ∀ q ∈ leafPaths es, q.1 ≠ []
  | [] => by simp [leafPaths]
  | (k, .prim p) :: rest => by
    intro q hq
    simp only [leafPaths, List.mem_cons] at hq
    rcases hq with rfl | hq
    · simp
    · exact leafPaths_fst_ne_nil rest q hq
  | (k, .obj sub) :: rest => by
    intro q hq
    simp only [leafPaths, List.mem_append, List.mem_map] at hq
    rcases hq with ⟨q2, hq2, rfl⟩ | hq
    · simp
    · exact leafPaths_fst_ne_nil rest q hq
termination_by es => sizeOf es

theorem leafPaths_head_mem : ∀ (es : List (String × Doc)), ∀ q ∈ leafPaths es,
    ∃ k t, q.1 = k :: t ∧ k ∈ es.map Prod.fst
  | [] => by simp [leafPaths]
  | (k, .prim p) :: rest => by
    intro q hq
    simp only [leafPaths, List.mem_cons] at hq
    rcases hq with rfl | hq
    · exact ⟨k, [], rfl, by simp⟩
    · obtain ⟨k2, t, ht, hm⟩ := leafPaths_head_mem rest q hq
      exact ⟨k2, t, ht, by simp [hm]⟩
  | (k, .obj sub) :: rest => by
    intro q hq
    simp only [leafPaths, List.mem_append, List.mem_map] at hq
    rcases hq with ⟨q2, hq2, rfl⟩ | hq
    · exact ⟨k, q2.1, rfl, by simp⟩
    · obtain ⟨k2, t, ht, hm⟩ := leafPaths_head_mem rest q hq
      exact ⟨k2, t, ht, by simp [hm]⟩
termination_by es => sizeOf es

theorem leafPaths_fst_nodup : ∀ (es : List (String × Doc)),
    wfEntries es = true → ((leafPaths es).map Prod.fst).Nodup
  | [], _ => by simp [leafPaths]
  | (k, .prim p) :: rest, hwf => by
    obtain ⟨hk, _, hrest⟩ := wfEntries_cons hwf
    simp only [leafPaths, List.map_cons]
    rw [List.nodup_cons]
    refine ⟨?_, leafPaths_fst_nodup rest hrest⟩
    intro hmem
    rw [List.mem_map] at hmem
    obtain ⟨q, hq, hq1⟩ := hmem
    obtain ⟨k2, t, ht, hm⟩ := leafPaths_head_mem rest q hq
    rw [ht] at hq1
    have hkk : k2 = k := by
      have := congrArg (fun l => l.head?) hq1
      simpa using this
    subst hkk
    exact hk hm
  | (k, .obj sub) :: rest, hwf => by
    obtain ⟨hk, hobj, hrest⟩ := wfEntries_cons hwf
    obtain ⟨hsubne, hsubwf⟩ := hobj sub rfl
    simp only [leafPaths, List.map_append, List.map_map]
    rw [List.nodup_append]
    refine ⟨?_, leafPaths_fst_nodup rest hrest, ?_⟩
    · have heq : (List.map (Prod.fst ∘ (fun q : List String × Prim => (k :: q.1, q.2)))
          (leafPaths sub)) =
          List.map (fun t => k :: t) (List.map Prod.fst (leafPaths sub)) := by
        rw [List.map_map]
        apply List.map_congr_left
        intro q _
        rfl
      rw [heq]
      exact (leafPaths_fst_nodup sub hsubwf).map (fun t1 t2 hcons => by injection hcons)
    · intro x hx hx2
      rw [List.mem_map] at hx hx2
      obtain ⟨qx, hqx, hx1⟩ := hx
      obtain ⟨qy, hqy, hy1⟩ := hx2
      obtain ⟨k2, t, ht, hm⟩ := leafPaths_head_mem rest qy hqy
      rw [ht] at hy1
      have hxval : x = k :: qx.1 := by
        rw [← hx1]
        rfl
      have hkk : k2 = k := by
        have := congrArg (fun l => l.head?) (hy1.trans hxval)
        simpa using this
      subst hkk
      exact hk hm
termination_by es => sizeOf es

theorem leafPaths_good : ∀ (es : List (String × Doc)), keysOk es = true →
    ∀ q ∈ leafPaths es, ∀ s ∈ q.1, s ≠ "" ∧ dotFree s = true
  | [], _ => by simp [leafPaths]
  | (k, .prim p) :: rest, hko => by
    obtain ⟨hk1, hk2, _, hrest⟩ := keysOk_cons hko
    intro q hq
    simp only [leafPaths, List.mem_cons] at hq
    rcases hq with rfl | hq
    · intro s hs
      simp only [List.mem_singleton] at hs
      subst hs
      exact ⟨hk1, hk2⟩
    · exact leafPaths_good rest hrest q hq
  | (k, .obj sub) :: rest, hko => by
    obtain ⟨hk1, hk2, hobj, hrest⟩ := keysOk_cons hko
    intro q hq
    simp only [leafPaths, List.mem_append, List.mem_map] at hq
    rcases hq with ⟨q2, hq2, rfl⟩ | hq
    · intro s hs
      simp only [List.mem_cons] at hs
      rcases hs with rfl | hs
      · exact ⟨hk1, hk2⟩
      · exact leafPaths_good sub (hobj sub rfl) q2 hq2 s hs
    · exact leafPaths_good rest hrest q hq
termination_by es => sizeOf es

theorem append_dot_ne_empty (a b : String) : a ++ "." ++ b ≠ "" := by
  intro h
  have hd := congrArg String.data h
  rw [show (a ++ "." ++ b).data = a.data ++ '.' :: b.data from by
    simp [String.data_append]] at hd
  simp at hd

theorem joinPath_ne (pre k : String) (hpre : pre ≠ "") :
    joinPath pre k = pre ++ "." ++ k := if_neg hpre

theorem joinAll_of_ne : ∀ (ks : List String) (pre : String), pre ≠ "" → ks ≠ [] →
    joinAll pre ks = pre ++ "." ++ dotJoin ks
  | [], _, _, hne => absurd rfl hne
  | [k], pre, hpre, _ => by
    rw [joinAll_single, joinPath_ne pre k hpre, dotJoin]
  | k :: k2 :: t, pre, hpre, _ => by
    rw [joinAll_cons,
      joinAll_of_ne (k2 :: t) (joinPath pre k) (by
        rw [joinPath_ne pre k hpre]
        exact append_dot_ne_empty pre k) (by simp),
      joinPath_ne pre k hpre, dotJoin]
    simp [String.append_assoc]

theorem joinAll_empty_pre (k : String) (t : List String) (hk : k ≠ "") :
    joinAll "" (k :: t) = dotJoin (k :: t) := by
  rw [joinAll_cons, show joinPath "" k = k from if_pos rfl]
  cases t with
  | nil => rfl
  | cons k2 t2 => rw [joinAll_of_ne (k2 :: t2) k hk (by simp), dotJoin]

theorem splitDot_dotJoin : ∀ (ks : List String), ks ≠ [] →
    (∀ s ∈ ks, dotFree s = true) → splitDot (dotJoin ks) = ks
  | [], hne, _ => absurd rfl hne
  | [k], _, hall => by
    rw [dotJoin]
    exact splitDot_single (hall k (by simp))
  | k :: k2 :: t, _, hall => by
    have hd : (k ++ "." ++ dotJoin (k2 :: t)).data =
        k.data ++ '.' :: (dotJoin (k2 :: t)).data := by
      simp [String.data_append]
    rw [dotJoin, splitDot, hd, splitDotAux_dot _ _ _ (dotFree_chars (hall k (by simp))),
      show splitDotAux (dotJoin (k2 :: t)).data [] = splitDot (dotJoin (k2 :: t)) from rfl,
      splitDot_dotJoin (k2 :: t) (by simp) (fun s hs => hall s (by simp [hs]))]
    rfl

theorem joined_eq_dotJoin (es : List (String × Doc)) (hko : keysOk es = true) :
    ∀ q ∈ leafPaths es, joinAll "" q.1 = dotJoin q.1 := by
  intro q hq
  obtain ⟨kk, t, ht, _⟩ := leafPaths_head_mem es q hq
  have hgood := leafPaths_good es hko q hq
  rw [ht]
  exact joinAll_empty_pre kk t (hgood kk (by rw [ht]; simp)).1

theorem joined_nodup (es : List (String × Doc)) (hwf : wfEntries es = true)
    (hko : keysOk es = true) :
    ((leafPaths es).map (fun q => joinAll "" q.1)).Nodup := by
  have hseg := leafPaths_fst_nodup es hwf
  have heq : (leafPaths es).map (fun q => joinAll "" q.1) =
      (leafPaths es).map (fun q => dotJoin q.1) :=
    List.map_congr_left (fun q hq => joined_eq_dotJoin es hko q hq)
  have heq2 : (leafPaths es).map (fun q => dotJoin q.1) =
      ((leafPaths es).map Prod.fst).map dotJoin := by
    rw [List.map_map]
    rfl
  rw [heq, heq2]
  apply List.Nodup.map_on ?inj hseg
  case inj =>
    intro x hx y hy hxy
    rw [List.mem_map] at hx hy
    obtain ⟨qx, hqx, rfl⟩ := hx
    obtain ⟨qy, hqy, rfl⟩ := hy
    have hgx := leafPaths_good es hko qx hqx
    have hgy := leafPaths_good es hko qy hqy
    have hnex := leafPaths_fst_ne_nil es qx hqx
    have hney := leafPaths_fst_ne_nil es qy hqy
    calc qx.1 = splitDot (dotJoin qx.1) :=
          (splitDot_dotJoin _ hnex (fun s hs => (hgx s hs).2)).symm
      _ = splitDot (dotJoin qy.1) := by rw [hxy]
      _ = qy.1 := splitDot_dotJoin _ hney (fun s hs => (hgy s hs).2)

theorem getAssoc_eq_none {α : Type} (l : List (String × α)) (k : String)
    (h : k ∉ l.map Prod.fst) : getAssoc l k = none := by
  induction l with
  | nil => rfl
  | cons head rest ih =>
    obtain ⟨k2, v2⟩ := head
    have hne : k2 ≠ k := fun hq => h (by simp [hq])
    rw [getAssoc, if_neg hne, ih (fun hm => h (by simp [hm]))]

theorem childFor_not_mem (done : List (String × Doc)) (k : String)
    (hk : k ∉ done.map Prod.fst) : childFor done k = Doc.obj [] := by
  rw [childFor, getAssoc_eq_none done k hk]

theorem childFor_obj (done : List (String × Doc)) (k : String)
    (ces : List (String × Doc)) (hk : k ∉ done.map Prod.fst) :
    childFor (done ++ [(k, .obj ces)]) k = .obj ces := by
  rw [childFor, getAssoc_append_left _ _ _ hk]
  simp [getAssoc, truthy]

theorem writePath_cons_eq (es : List (String × Doc)) (k k2 : String)
    (t : List String) (v : Prim) :
    writePath (.obj es) (k :: k2 :: t) v =
      match writePath (childFor es k) (k2 :: t) v with
      | .ok c2 => .ok (.obj (setAssoc es k c2))
      | .error e => .error e := rfl

theorem writePath_obj_shape : ∀ (es : List (String × Doc)) (ks : List String) (v : Prim),
    writePath (.obj es) ks v = .error () ∨
      ∃ fs, writePath (.obj es) ks v = .ok (.obj fs)
  | es, [], _ => Or.inr ⟨es, rfl⟩
  | es, [k], v => Or.inr ⟨setAssoc es k (.prim v), rfl⟩
  | es, k :: k2 :: t, v => by
    rw [writePath_cons_eq]
    cases hres : writePath (childFor es k) (k2 :: t) v with
    | ok c2 => exact Or.inr ⟨setAssoc es k c2, rfl⟩
    | error e =>
      cases e
      exact Or.inl rfl

theorem writePath_fresh : ∀ (ks : List String) (v : Prim), ks ≠ [] →
    ∃ fs, writePath (.obj []) ks v = .ok (.obj fs)
  | [], _, hne => absurd rfl hne
  | [k], v, _ => ⟨[(k, .prim v)], rfl⟩
  | k :: k2 :: t, v, _ => by
    obtain ⟨fs, hfs⟩ := writePath_fresh (k2 :: t) v (by simp)
    refine ⟨[(k, .obj fs)], ?_⟩
    rw [writePath_cons_eq, show childFor [] k = Doc.obj [] from rfl, hfs]
    rfl

theorem insertSegs_append (acc : Doc) (l1 l2 : List (List String × Prim)) :
    insertSegs acc (l1 ++ l2) =
      match insertSegs acc l1 with
      | .ok a2 => insertSegs a2 l2
      | .error e => .error e := by
  induction l1 generalizing acc with
  | nil => simp [insertSegs]
  | cons head rest ih =>
    obtain ⟨ks, v⟩ := head
    rw [List.cons_append]
    cases hw : writePath acc ks v with
    | ok a2 => simp only [insertSegs, hw]; exact ih a2
    | error e => simp only [insertSegs, hw]

theorem insertSegs_nested : ∀ (qs : List (List String × Prim))
    (ces done : List (String × Doc)) (k : String),
    (∀ q ∈ qs, q.1 ≠ []) → k ∉ done.map Prod.fst →
    insertSegs (.obj (done ++ [(k, .obj ces)])) (qs.map (fun q => (k :: q.1, q.2))) =
      match insertSegs (.obj ces) qs with
      | .ok c2 => .ok (.obj (done ++ [(k, c2)]))
      | .error e => .error e
  | [], ces, done, k, _, _ => by simp [insertSegs]
  | (q, v) :: qs2, ces, done, k, hne, hk => by
    obtain ⟨s, t, hq⟩ : ∃ s t, q = s :: t := by
      cases q with
      | nil => exact absurd rfl (hne ([], v) (by simp))
      | cons s t => exact ⟨s, t, rfl⟩
    subst hq
    rw [List.map_cons]
    rcases writePath_obj_shape ces (s :: t) v with herr | ⟨fs, hfs⟩
    · simp only [insertSegs, writePath_cons_eq, childFor_obj done k ces hk, herr]
    · simp only [insertSegs, writePath_cons_eq, childFor_obj done k ces hk, hfs]
      rw [setAssoc_append_self done k _ _ hk,
        insertSegs_nested qs2 fs done k (fun q2 hq2 => hne q2 (by simp [hq2])) hk]

theorem leafPaths_ne_nil : ∀ (es : List (String × Doc)), wfEntries es = true →
    es ≠ [] → leafPaths es ≠ []
  | [], _, hne => absurd rfl hne
  | (k, .prim p) :: rest, _, _ => by simp [leafPaths]
  | (k, .obj sub) :: rest, hwf, _ => by
    obtain ⟨_, hobjf, hrest⟩ := wfEntries_cons hwf
    obtain ⟨hsubne, hsubwf⟩ := hobjf sub rfl
    have hrec := leafPaths_ne_nil sub hsubwf hsubne
    simp only [leafPaths]
    intro hq
    rw [List.append_eq_nil] at hq
    exact hrec (List.map_eq_nil_iff.mp hq.1)
termination_by es => sizeOf es

theorem insertSegs_leafPaths : ∀ (es done : List (String × Doc)),
    wfEntries es = true → (∀ k2 ∈ es.map Prod.fst, k2 ∉ done.map Prod.fst) →
    insertSegs (.obj done) (leafPaths es) = .ok (.obj (done ++ es))
  | [], done, _, _ => by simp [insertSegs, leafPaths]
  | (key, .prim p) :: rest, done, hwf, hfresh => by
    obtain ⟨hk, _, hrest⟩ := wfEntries_cons hwf
    have hkd : key ∉ done.map Prod.fst := hfresh key (by simp)
    have hw : writePath (Doc.obj done) [key] p =
        .ok (.obj (done ++ [(key, .prim p)])) := by
      rw [show writePath (Doc.obj done) [key] p =
        .ok (.obj (setAssoc done key (.prim p))) from rfl,
        setAssoc_of_not_mem done key _ hkd]
    have hfr : ∀ k2 ∈ rest.map Prod.fst,
        k2 ∉ (done ++ [(key, Doc.prim p)]).map Prod.fst := by
      intro k2 hk2 hmem
      rw [List.map_append, List.mem_append] at hmem
      rcases hmem with hmem | hmem
      · exact hfresh k2 (by simp [hk2]) hmem
      · simp only [List.map_cons, List.map_nil, List.mem_singleton] at hmem
        subst hmem
        exact hk hk2
    simp only [leafPaths, insertSegs, hw]
    rw [insertSegs_leafPaths rest (done ++ [(key, Doc.prim p)]) hrest hfr]
    simp
  | (key, .obj sub) :: rest, done, hwf, hfresh => by
    obtain ⟨hk, hobjf, hrest⟩ := wfEntries_cons hwf
    obtain ⟨hsubne, hsubwf⟩ := hobjf sub rfl
    have hkd : key ∉ done.map Prod.fst := hfresh key (by simp)
    obtain ⟨q0, qs0, hlp⟩ : ∃ q0 qs0, leafPaths sub = q0 :: qs0 := by
      cases hh : leafPaths sub with
      | nil => exact absurd hh (leafPaths_ne_nil sub hsubwf hsubne)
      | cons q0 qs0 => exact ⟨q0, qs0, rfl⟩
    obtain ⟨s, t, hq0⟩ : ∃ s t, q0.1 = s :: t := by
      have hne := leafPaths_fst_ne_nil sub q0 (by rw [hlp]; simp)
      cases hq : q0.1 with
      | nil => exact absurd hq hne
      | cons s t => exact ⟨s, t, rfl⟩
    obtain ⟨fs0, hfs0⟩ := writePath_fresh (s :: t) q0.2 (by simp)
    have hmain := insertSegs_leafPaths sub [] hsubwf (by simp)
    rw [List.nil_append, hlp] at hmain
    rw [show insertSegs (Doc.obj []) (q0 :: qs0) =
        (match writePath (Doc.obj []) q0.1 q0.2 with
        | .ok a2 => insertSegs a2 qs0
        | .error e => .error e) from by cases q0; rfl] at hmain
    rw [hq0, hfs0] at hmain
    have hmain2 : insertSegs (Doc.obj fs0) qs0 = Except.ok (Doc.obj sub) := hmain
    have hw1 : writePath (Doc.obj done) (key :: q0.1) q0.2 =
        .ok (.obj (done ++ [(key, .obj fs0)])) := by
      rw [hq0, writePath_cons_eq, childFor_not_mem done key hkd, hfs0]
      show Except.ok (Doc.obj (setAssoc done key (Doc.obj fs0))) = _
      rw [setAssoc_of_not_mem done key _ hkd]
    have hblock : insertSegs (Doc.obj done)
        ((key :: q0.1, q0.2) :: qs0.map (fun q => (key :: q.1, q.2))) =
        .ok (.obj (done ++ [(key, .obj sub)])) := by
      rw [show insertSegs (Doc.obj done)
          ((key :: q0.1, q0.2) :: qs0.map (fun q => (key :: q.1, q.2))) =
          (match writePath (Doc.obj done) (key :: q0.1) q0.2 with
          | .ok a2 => insertSegs a2 (qs0.map (fun q => (key :: q.1, q.2)))
          | .error e => .error e) from rfl, hw1]
      show insertSegs (Doc.obj (done ++ [(key, Doc.obj fs0)]))
          (qs0.map (fun q => (key :: q.1, q.2))) = _
      rw [insertSegs_nested qs0 fs0 done key
        (fun q2 hq2 => leafPaths_fst_ne_nil sub q2 (by rw [hlp]; simp [hq2])) hkd,
        hmain2]
    have hfr2 : ∀ k2 ∈ rest.map Prod.fst,
        k2 ∉ (done ++ [(key, Doc.obj sub)]).map Prod.fst := by
      intro k2 hk2 hmem
      rw [List.map_append, List.mem_append] at hmem
      rcases hmem with hmem | hmem
      · exact hfresh k2 (by simp [hk2]) hmem
      · simp only [List.map_cons, List.map_nil, List.mem_singleton] at hmem
        subst hmem
        exact hk hk2
    simp only [leafPaths, hlp, List.map_cons, insertSegs_append, hblock]
    show insertSegs (Doc.obj (done ++ [(key, Doc.obj sub)])) (leafPaths rest) = _
    rw [insertSegs_leafPaths rest (done ++ [(key, Doc.obj sub)]) hrest hfr2]
    simp
termination_by es => sizeOf es

theorem unflattenAux_eq_insertSegs (acc : Doc) (qs : List (List String × Prim))
    (h : ∀ q ∈ qs, splitDot (dotJoin q.1) = q.1) :
    unflattenAux acc (qs.map (fun q => (dotJoin q.1, q.2))) = insertSegs acc qs := by
  induction qs generalizing acc with
  | nil => rfl
  | cons head rest ih =>
    obtain ⟨ks, v⟩ := head
    simp only [List.map_cons, unflattenAux, insertSegs]
    rw [show splitDot (dotJoin ks) = ks from h (ks, v) (by simp)]
    cases hw : writePath acc ks v with
    | ok a2 =>
      simp only [hw]
      exact ih a2 (fun q hq => h q (by simp [hq]))
    | error e => simp only [hw]

/-- C1 counterexample: the document `{"a.b": 1}` has scalar leaves, mapping
internal nodes and no arrays, yet does not round trip: its single leaf
flattens to the path `"a.b"`, which `unflatten` re-splits at the dot,
rebuilding `{a: {b: 1}}` instead of the original document. -/
theorem flatten_unflatten_dot_key :
    unflatten (flatten [("a.b", Doc.prim (Prim.num 1))] "" []) ≠
      Except.ok (Doc.obj [("a.b", Doc.prim (Prim.num 1))]) := by
  have hf : flatten [("a.b", Doc.prim (Prim.num 1))] "" [] =
      [("a.b", Prim.num 1)] := by
    simp [flatten, setAssoc, joinPath]
  rw [hf]
  have hval : unflatten [("a.b", Prim.num 1)] =
      Except.ok (Doc.obj [("a", Doc.obj [("b", Doc.prim (Prim.num 1))])]) := rfl
  rw [hval]
  intro h
  injection h with h2
  injection h2 with h3
  injection h3 with h4 h5
  exact absurd (congrArg Prod.fst h4) (by decide)

/-- C1 amended: for every nested document whose leaf values are scalars and
whose internal nodes are non-empty mappings (no arrays anywhere), with
duplicate-free field names as in any JS object, and — the amendment forced by
the counterexample — every field name non-empty and free of dots,
`unflatten (flatten d)` succeeds and returns exactly `d`. -/
theorem unflatten_flatten_roundtrip (es : List (String × Doc))
    (hwf : wfEntries es = true) (hko : keysOk es = true) :
    unflatten (flatten es "" []) = .ok (.obj es) := by
  have hnd := joined_nodup es hwf hko
  have hfe := flatten_eq es "" [] hnd (by simp)
  rw [List.nil_append] at hfe
  rw [unflatten, hfe]
  have hmapeq : (leafPaths es).map (fun q => (joinAll "" q.1, q.2)) =
      (leafPaths es).map (fun q => (dotJoin q.1, q.2)) :=
    List.map_congr_left (fun q hq => by rw [joined_eq_dotJoin es hko q hq])
  rw [hmapeq, unflattenAux_eq_insertSegs (Doc.obj []) (leafPaths es)
    (fun q hq => splitDot_dotJoin q.1 (leafPaths_fst_ne_nil es q hq)
      (fun s hs => (leafPaths_good es hko q hq s hs).2)),
    insertSegs_leafPaths es [] hwf (by simp)]
  rw [List.nil_append]

theorem unflatten_flatten_roundtrip_witness :
    (wfEntries [("a", Doc.prim (Prim.num 1)),
        ("b", Doc.obj [("c", Doc.prim (Prim.str "x"))])] = true ∧
      keysOk [("a", Doc.prim (Prim.num 1)),
        ("b", Doc.obj [("c", Doc.prim (Prim.str "x"))])] = true) ∧
    unflatten (flatten [("a", Doc.prim (Prim.num 1)),
        ("b", Doc.obj [("c", Doc.prim (Prim.str "x"))])] "" []) =
      .ok (.obj [("a", Doc.prim (Prim.num 1)),
        ("b", Doc.obj [("c", Doc.prim (Prim.str "x"))])]) := by
  have hwf : wfEntries [("a", Doc.prim (Prim.num 1)),
      ("b", Doc.obj [("c", Doc.prim (Prim.str "x"))])] = true := by
    simp [wfEntries]
  have hko : keysOk [("a", Doc.prim (Prim.num 1)),
      ("b", Doc.obj [("c", Doc.prim (Prim.str "x"))])] = true := by
    simp [keysOk, dotFree]
  exact ⟨⟨hwf, hko⟩, unflatten_flatten_roundtrip _ hwf hko⟩
